import Mathlib

/-!
Verification of the jonsabados/crawler repository (Go) against its
natural-language specification.  The repository holds two generations of the
crawler:

* the queue variant (src/crawl/crawl.go): one shared channel `urlsToProcess`
  of URLs with buffer capacity equal to the worker count, a mutex-guarded
  seen-set `urlsSeen`, and a polling idle-watcher that declares completion
  when every worker has been idle longer than a debounce threshold;

* the pool variant (src/crawl/concurrency.go together with
  src/unnamed/part_000 and src/unnamed/part_001): a recursive `crawl`
  function handing fetches to a pool of workers over an unbuffered request
  channel, a `visitedURLTracker` with an atomic test-and-set, and a `siteMap`
  collecting url -> links.

Pure fragments of the Go code are translated directly.  The concurrent queue
variant is embedded as a small-step transition relation (`QStep`) whose
atomic steps are exactly the lock-protected sections of the Go code; the
recursive variant is embedded as a fuel-indexed sequentialisation (`crawl`)
of the recursion, which is faithful for the per-invocation data facts proved
about it (which URLs acquire siteMap entries, which error is returned).
-/

/-! ## Data model (src/unnamed/part_000 lines 17-53) -/

/-- Go `type LinkType int` with constants `LinkTypeA` and `LinkTypeImg`. -/
inductive LinkType where
  | LinkTypeA
  | LinkTypeImg
  deriving DecidableEq

/-- Go `type Link struct { LinkType LinkType; LinkTarget string }`. -/
structure Link where
  linkType : LinkType
  linkTarget : String
  deriving DecidableEq

/-! ## Quiescence detector (src/unnamed/part_001 lines 33-63, and the inline
watcher of src/crawl/crawl.go lines 180-207, whose per-poll logic is the
same).  The idle map is a partial map from worker index to the timestamp at
which that worker went idle; a worker absent from the map is busy.  The Go
loop calls time.Now() once per worker inside the poll, so the current time is
a function of the worker index. -/

/-- One worker's contribution to a poll: the Go loop sets allDone to false
when the worker is absent from the idle map (busy) or when
time.Now().Sub(idleTime) < idleThreshold. -/
def workerDoneAtPoll (idleMap : Nat → Option Int) (now : Nat → Int) (idleThreshold : Int)
    (i : Nat) : Bool :=
  match idleMap i with
  | none => false
  | some idleTime => decide (idleThreshold ≤ now i - idleTime)

/-- One poll of the detector: `allDone := true; for i := 0; i < workerCount; i++
{ if !isIdle { allDone = false } else if time.Now().Sub(idleTime) < idleThreshold
{ allDone = false } }`; the completion signal is sent only when the result is
true (idleWorkerTracker.Await, and the crawl.go watcher goroutine). -/
def awaitPollAllDone (idleMap : Nat → Option Int) (now : Nat → Int) (workerCount : Nat)
    (idleThreshold : Int) : Bool :=
  (List.range workerCount).foldl
    (fun allDone i =>
      match idleMap i with
      | none => false
      | some idleTime => if now i - idleTime < idleThreshold then false else allDone)
    true

/-! ## Visited-set admission (src/crawl/concurrency.go lines 87-95 and
src/unnamed/part_001 lines 77-90).  The Go maps `urlsSeen map[string]bool`
only ever hold `true`, so they are embedded as finite sets of strings.  The
channel `urlsToWork` is embedded as the multiset of URLs that have been
committed to the queue: appendURL spawns the actual channel send on a
detached goroutine while still holding the lock, so commitment to the queue
happens atomically with marking the URL seen. -/

/-- visitedURLTracker.hasURLBeenSeenPreviously: under the mutex, look the URL
up, insert it when absent, and return whether it was already present.  The
returned pair is (result, state of urlsSeen after the call). -/
def hasURLBeenSeenPreviously (urlsSeen : Finset String) (url : String) :
    Bool × Finset String :=
  if url ∈ urlsSeen then (true, urlsSeen) else (false, insert url urlsSeen)

/-- State of a urlTracker (src/unnamed/part_001 lines 71-75). -/
structure UrlTracker where
  urlsSeen : Finset String
  urlsToWork : Multiset String
  deriving DecidableEq

/-- urlTracker.appendURL: under the lock, if the URL is unseen, commit it to
the work queue (the send itself runs on a spawned goroutine) and mark it
seen; otherwise do nothing.  The Go method returns nothing and never fails. -/
def appendURL (v : UrlTracker) (url : String) : UrlTracker :=
  if url ∈ v.urlsSeen then v
  else { urlsSeen := insert url v.urlsSeen, urlsToWork := url ::ₘ v.urlsToWork }

/-! ## Worker-start loops.  crawl.go line 169: `for i := 0; i < workerCount;
i++ { idleMap[i] = time.Now(); startWorker(i) }` starts workers 0,...,
workerCount-1.  concurrency.go line 49: `for i := 0; i <= workerCount; i++ {
startWorker(i) }` starts workers 0,...,workerCount. -/

/-- Indices of the workers started by workerPool.startWorkerPool
(concurrency.go line 49, loop condition `i <= workerCount`). -/
def startWorkerPoolWorkers (workerCount : Nat) : List Nat :=
  List.range (workerCount + 1)

/-- Indices of the workers started by the crawler returned by crawl.go's
NewCrawler (crawl.go line 169, loop condition `i < workerCount`). -/
def newCrawlerWorkers (workerCount : Nat) : List Nat :=
  List.range workerCount

/-! ## Channel capacities.  crawl.go line 106: `urlsToProcess := make(chan
string, workerCount)`.  concurrency.go line 22: `w.workQueue = make(chan
workRequest)`, i.e. unbuffered. -/

/-- Buffer capacity of the queue-variant frontier channel (crawl.go line 106). -/
def urlsToProcessCapacity (workerCount : Nat) : Nat := workerCount

/-- Buffer capacity of the pool-variant work queue (concurrency.go line 22):
a Go channel made without a capacity argument is unbuffered. -/
def workQueueCapacity : Nat := 0

/-! ## Entry-point validation (src/unnamed/part_001 lines 112-135).  main
rejects an empty -url flag (exit 1), a seed URL that fails url.Parse (exit
2), and a scheme other than http/https (exit 3); it never examines the
-workers flag before starting the crawl.  url.Parse itself is external
library code and is abstracted as a function producing the parsed scheme. -/

/-- The fragment of a parsed net/url URL that main consults. -/
structure GoURL where
  scheme : String
  deriving DecidableEq

/-- Validation performed by main before constructing and invoking the
crawler: some (exit code) when the process exits without crawling, none when
the crawl proceeds.  The workerCount flag is accepted unexamined. -/
def mainValidate (parse : String → Option GoURL) (startingURL : String)
    (workerCount : Int) : Option Nat :=
  if startingURL = "" then some 1
  else
    match parse startingURL with
    | none => some 2
    | some u => if u.scheme ≠ "https" ∧ u.scheme ≠ "http" then some 3 else none

/-- A concrete stand-in for url.Parse that succeeds on one URL. -/
def exampleParse : String → Option GoURL := fun s =>
  if s = "http://example.com" then some ⟨"http"⟩ else none

/-! ## Orchestrator stop outcomes.  crawl.go lines 209-217: when the
stopSignal case of the select fires, the crawler closes the channel and
returns (nil, errors.New("execution terminated")); when the workersIdle case
fires it returns the keys of urlsSeen and no error.  The recursive variant's
stop handling (part_000 lines 161-165) sits inside each crawl call's select
and is embedded below by crawlStop. -/

/-- Outcome of the queue-variant orchestrator select (crawl.go lines
209-223), as a function of which channel fired first. -/
def qvSelectOutcome (stopFired : Bool) (urlsSeenKeys : List String) :
    Option (List String) × Option String :=
  if stopFired then (none, some "execution terminated") else (some urlsSeenKeys, none)

/-! ## Link-target resolution (src/unnamed/part_000 lines 81-116).
url.Parse and url.ResolveReference are external library code, abstracted as
a parse function (none = parse error) and a resolve function (resolution of
the parsed relative URL against the source document's URL, rendered back to
a string). -/

/-- Go strings.HasPrefix, expressed over the string's characters. -/
def goHasPre (s pre : String) : Bool := pre.toList.isPrefixOf s.toList

/-- linkTarget (part_000 lines 107-116): an href beginning with one of the
three absolute prefixes is returned unchanged; otherwise it is parsed and
resolved against the source URL; a parse failure yields ("", nil) - the
error is swallowed. -/
def linkTarget {α : Type} (parse : String → Option α) (resolve : α → String)
    (href : String) : String × Option String :=
  if goHasPre href "mailto:" || goHasPre href "http://" || goHasPre href "https://" then
    (href, none)
  else
    match parse href with
    | none => ("", none)
    | some relative => (resolve relative, none)

/-- The recording step of processElement (part_000 lines 92-100): on a nil
error the Link is appended with whatever target linkTarget produced; on a
non-nil error the link is skipped (only logged). -/
def processElementRecord {α : Type} (parse : String → Option α) (resolve : α → String)
    (linkType : LinkType) (existingLinks : List Link) (val : String) : List Link :=
  match linkTarget parse resolve val with
  | (target, none) => existingLinks ++ [⟨linkType, target⟩]
  | (_, some _) => existingLinks

/-! ## Small-step semantics of the queue-variant crawl (crawl.go lines
97-225).  A state records the mutex-guarded seen-set, the frontier channel
split into sends spawned but not yet delivered (pending) and the channel
buffer itself (buffer), the multiset of URLs already received and fetched by
workers, and the link lists of pages fetched but whose admission loop has
not finished (inflight).  Each transition is one atomic step of the Go code:
the admission steps are exactly the body of the urlsLock critical section
(lines 145-156), delivery of a spawned send is guarded by the channel
capacity, and a worker receiving a URL fetches it and starts walking its
links. -/

structure QState where
  urlsSeen : Finset String
  pending : Multiset String
  buffer : Multiset String
  fetched : Multiset String
  inflight : Multiset (List String)
  deriving DecidableEq

/-- One atomic step of the queue-variant crawl, parameterised by the link
structure of the site, the eligibility predicate, and the channel capacity. -/
inductive QStep (links : String → List String) (elig : String → Bool) (cap : Nat) :
    QState → QState → Prop
  | admitNew (s : QState) (l : String) (rest : List String)
      (hb : (l :: rest) ∈ s.inflight) (he : elig l = true) (hs : l ∉ s.urlsSeen) :
      QStep links elig cap s
        ⟨insert l s.urlsSeen, l ::ₘ s.pending, s.buffer, s.fetched,
          rest ::ₘ s.inflight.erase (l :: rest)⟩
  | admitSkip (s : QState) (l : String) (rest : List String)
      (hb : (l :: rest) ∈ s.inflight) (hskip : elig l = false ∨ l ∈ s.urlsSeen) :
      QStep links elig cap s
        ⟨s.urlsSeen, s.pending, s.buffer, s.fetched, rest ::ₘ s.inflight.erase (l :: rest)⟩
  | finishBatch (s : QState) (hb : ([] : List String) ∈ s.inflight) :
      QStep links elig cap s
        ⟨s.urlsSeen, s.pending, s.buffer, s.fetched, s.inflight.erase []⟩
  | deliverPending (s : QState) (l : String) (hl : l ∈ s.pending)
      (hcap : Multiset.card s.buffer < cap) :
      QStep links elig cap s
        ⟨s.urlsSeen, s.pending.erase l, l ::ₘ s.buffer, s.fetched, s.inflight⟩
  | takeAndFetch (s : QState) (u : String) (hu : u ∈ s.buffer) :
      QStep links elig cap s
        ⟨s.urlsSeen, s.pending, s.buffer.erase u, u ::ₘ s.fetched, links u ::ₘ s.inflight⟩

/-- Initial state (crawl.go lines 101-103 and 174): the seed URL is
pre-marked seen and sent on the channel before any worker runs. -/
def initState (seed : String) : QState := ⟨{seed}, 0, {seed}, 0, 0⟩

/-- States reachable by the queue-variant crawl from its initial state. -/
inductive QReach (links : String → List String) (elig : String → Bool) (cap : Nat)
    (seed : String) : QState → Prop
  | init : QReach links elig cap seed (initState seed)
  | step {s s' : QState} : QReach links elig cap seed s → QStep links elig cap s s' →
      QReach links elig cap seed s'

/-- Quiescence: nothing queued, nothing buffered, no admission loop running. -/
def QTerminal (s : QState) : Prop := s.pending = 0 ∧ s.buffer = 0 ∧ s.inflight = 0

/-- How many copies of a URL sit in the frontier (spawned or buffered) or
have already been handed to a worker. -/
def queuedOrFetched (s : QState) (u : String) : Nat :=
  s.pending.count u + s.buffer.count u + s.fetched.count u

/-- The crawl's invariant: every URL occupies the frontier-or-fetched
pipeline exactly as often as the seen-set says (once when seen, never when
unseen); links of fetched pages are either already seen or still awaiting
their admission step; the seed stays seen. -/
def QInv (links : String → List String) (elig : String → Bool) (seed : String)
    (s : QState) : Prop :=
  (∀ u, queuedOrFetched s u = if u ∈ s.urlsSeen then 1 else 0) ∧
  (∀ u ∈ s.fetched, ∀ l ∈ links u, elig l = true →
    l ∈ s.urlsSeen ∨ ∃ b ∈ s.inflight, l ∈ b) ∧
  seed ∈ s.urlsSeen

/-- URLs reachable from the seed along eligible links. -/
inductive ReachURL (links : String → List String) (elig : String → Bool) (seed : String) :
    String → Prop
  | start : ReachURL links elig seed seed
  | step {u l : String} : ReachURL links elig seed u → l ∈ links u → elig l = true →
      ReachURL links elig seed l

/-- Fixed site used by concrete runs of the semantics: one page with no links. -/
def wLinks : String → List String := fun _ => []

/-- Eligibility predicate admitting everything, for concrete runs. -/
def wElig : String → Bool := fun _ => true

/-! ## Sequentialisation of the recursive-variant crawl (src/unnamed/part_000
lines 160-214 with the trackers of concurrency.go).  Fetching is abstracted
as a total function into Except (the worker pool only transports the call);
the shared visitedURLTracker and siteMap are threaded through explicitly,
and the concurrently spawned child crawls are run in order - each child's
test-and-set and map insert are atomic in the Go code, so the sequential
order is one of its legal interleavings.  Recursion is fuel-indexed; fuel 0
returns the state unchanged. -/

structure RVState where
  urlsSeen : Finset String
  siteMap : String → Option (List Link)

/-- siteMap.addURL (concurrency.go lines 73-80): store url -> links. -/
def addURL (s : RVState) (url : String) (links : List Link) : RVState :=
  { s with siteMap := fun v => if v = url then some links else s.siteMap v }

/-- The link-collection loop of crawl (part_000 lines 168-173): for each
fetched link, when it is a hyperlink passing the eligibility check, the
atomic test-and-set hasURLBeenSeenPreviously decides whether it joins
linksToCrawl.  Returns (linksToCrawl, urlsSeen after the loop). -/
def collectLinksToCrawl (elig : String → Bool) :
    List Link → List String → Finset String → List String × Finset String
  | [], acc, seen => (acc, seen)
  | l :: rest, acc, seen =>
    if l.linkType = LinkType.LinkTypeA ∧ elig l.linkTarget = true then
      if l.linkTarget ∈ seen then collectLinksToCrawl elig rest acc seen
      else collectLinksToCrawl elig rest (acc ++ [l.linkTarget]) (insert l.linkTarget seen)
    else collectLinksToCrawl elig rest acc seen

/-- crawl (part_000 lines 160-190), sequentialised: fetch the URL; on error
return the error with the state unchanged (the error is logged, no siteMap
entry is made, no retry happens); on success record the page, collect the
eligible unseen hyperlinks, and crawl them, discarding child errors exactly
as the Go code does with `_ = crawl(...)`. -/
def crawl (fetch : String → Except String (List Link)) (elig : String → Bool) :
    Nat → String → RVState → RVState × Option String
  | 0, _, st => (st, none)
  | fuel + 1, url, st =>
    match fetch url with
    | Except.error e => (st, some e)
    | Except.ok res =>
      let st1 := addURL st url res
      let collected := collectLinksToCrawl elig res [] st1.urlsSeen
      let st2 : RVState := { urlsSeen := collected.2, siteMap := st1.siteMap }
      ((collected.1.foldl (fun acc l => (crawl fetch elig fuel l acc).1) st2), none)

/-- One invocation of the crawler closure returned by part_000's NewCrawler
(lines 200-213): fresh trackers with the seed pre-marked, run crawl, return
the site map together with crawl's error. -/
def newCrawlerInvoke (fetch : String → Except String (List Link)) (elig : String → Bool)
    (fuel : Nat) (startingURL : String) : (String → Option (List Link)) × Option String :=
  let r := crawl fetch elig fuel startingURL ⟨{startingURL}, fun _ => none⟩
  (r.1.siteMap, r.2)

/-- URLs the recursive variant can reach from the seed: the seed itself, and
targets of eligible hyperlinks on successfully fetched reachable pages. -/
inductive ReachRV (fetch : String → Except String (List Link)) (elig : String → Bool)
    (seed : String) : String → Prop
  | start : ReachRV fetch elig seed seed
  | step {u : String} {ls : List Link} {l : Link} :
      ReachRV fetch elig seed u → fetch u = Except.ok ls → l ∈ ls →
      l.linkType = LinkType.LinkTypeA → elig l.linkTarget = true →
      ReachRV fetch elig seed l.linkTarget

/-- A concrete site for witnesses: the seed page embeds one image and links
nowhere; every other page is empty. -/
def wFetch : String → Except String (List Link) := fun u =>
  if u = "s" then Except.ok [⟨LinkType.LinkTypeImg, "i"⟩] else Except.ok []

/-- A concrete fetch that always fails. -/
def wFetchErr : String → Except String (List Link) := fun _ => Except.error "boom"

/-! ## The recursive-variant crawl under the stop signal (part_000 lines
160-190).  Every crawl call opens with `select { case <-stop: return
errors.New("context cancelled"); case res := <-s: ...; case err := <-e:
... }`: when the stop case wins, the call returns the cancellation error
having recorded nothing - in particular a stop that wins at the root call
returns before the root's addURL, so the site map is still empty - while a
stop observed by a spawned child is discarded by `_ = crawl(...)` just like
a child's fetch error.  Which case wins at a given call is the concurrency
oracle stopWins (each URL is crawled at most once, so indexing the oracle by
URL covers every schedule). -/

/-- crawl with the stop signal: as crawl, except that each call first
consults the select's outcome; when the stop case wins the call returns
("context cancelled") with the state untouched.  Children's results feed
only their states onward - their errors, cancellation included, are
discarded. -/
def crawlStop (fetch : String → Except String (List Link)) (elig : String → Bool)
    (stopWins : String → Bool) : Nat → String → RVState → RVState × Option String
  | 0, _, st => (st, none)
  | fuel + 1, url, st =>
    if stopWins url then (st, some "context cancelled")
    else
      match fetch url with
      | Except.error e => (st, some e)
      | Except.ok res =>
        let st1 := addURL st url res
        let collected := collectLinksToCrawl elig res [] st1.urlsSeen
        let st2 : RVState := { urlsSeen := collected.2, siteMap := st1.siteMap }
        ((collected.1.foldl (fun acc l => (crawlStop fetch elig stopWins fuel l acc).1) st2),
          none)

/-- One invocation of part_000's NewCrawler closure under the stop oracle:
fresh trackers, run crawlStop from the seed, return the site map together
with the root call's error (lines 200-213). -/
def newCrawlerInvokeStop (fetch : String → Except String (List Link))
    (elig : String → Bool) (stopWins : String → Bool) (fuel : Nat)
    (startingURL : String) : (String → Option (List Link)) × Option String :=
  let r := crawlStop fetch elig stopWins fuel startingURL ⟨{startingURL}, fun _ => none⟩
  (r.1.siteMap, r.2)

/-- A site for cancellation runs: the seed hyperlinks to page "a", which
links nowhere. -/
def wFetchA : String → Except String (List Link) := fun u =>
  if u = "s" then Except.ok [⟨LinkType.LinkTypeA, "a"⟩] else Except.ok []

/-- Stop oracle under which the stop signal wins only at the crawl of "a". -/
def wStopAtA : String → Bool := fun u => decide (u = "a")

/-! ## Helper lemmas -/

/-- Folding a list while a property of the accumulator is preserved by every
step taken on a member of the list preserves the property. -/
theorem foldl_preserves {α β : Type} (f : β → α → β) (P : β → Prop) :
    ∀ (l : List α), (∀ b, ∀ a ∈ l, P b → P (f b a)) → ∀ b, P b → P (l.foldl f b) := by
  intro l
  induction l with
  | nil => intro _ b hb; exact hb
  | cons a t ih =>
    intro h b hb
    exact ih (fun b' a' ha' => h b' a' (List.mem_cons_of_mem _ ha')) _
      (h b a (List.mem_cons_self _ _) hb)

/-- The detector's poll loop computes the conjunction of the per-worker
checks. -/
theorem awaitPoll_foldl_eq (idleMap : Nat → Option Int) (now : Nat → Int)
    (idleThreshold : Int) :
    ∀ (l : List Nat) (b : Bool),
      l.foldl
        (fun allDone i =>
          match idleMap i with
          | none => false
          | some idleTime => if now i - idleTime < idleThreshold then false else allDone)
        b = (b && l.all (workerDoneAtPoll idleMap now idleThreshold)) := by
  intro l
  induction l with
  | nil => intro b; simp
  | cons a t ih =>
    intro b
    simp only [List.foldl_cons, List.all_cons, ih]
    cases h : idleMap a with
    | none => simp [workerDoneAtPoll, h]
    | some idleTime =>
      by_cases hlt : now a - idleTime < idleThreshold
      · have : workerDoneAtPoll idleMap now idleThreshold a = false := by
          simp [workerDoneAtPoll, h, not_le.mpr hlt]
        simp [h, hlt, this]
      · have : workerDoneAtPoll idleMap now idleThreshold a = true := by
          simp [workerDoneAtPoll, h, not_lt.mp hlt]
        simp [h, hlt, this]

/-! ## C2: the quiescence detector signals completion only when every worker
is idle past the debounce threshold at the same poll. -/

/-- C2.  The poll underlying idleWorkerTracker.Await (and crawl.go's inline
watcher) reports all-done exactly when every worker index below workerCount
is present in the idle map with a timestamp at least idleThreshold before
the poll's reading of the clock for that worker; hence a busy worker (absent
from the map) or a worker idle for less than the threshold prevents the
completion signal at that poll. -/
theorem await_completion_requires_all_idle_past_threshold
    (idleMap : Nat → Option Int) (now : Nat → Int) (workerCount : Nat)
    (idleThreshold : Int) :
    awaitPollAllDone idleMap now workerCount idleThreshold = true ↔
      ∀ i < workerCount, ∃ idleTime,
        idleMap i = some idleTime ∧ idleThreshold ≤ now i - idleTime := by
  unfold awaitPollAllDone
  rw [awaitPoll_foldl_eq]
  simp only [Bool.true_and, List.all_eq_true, List.mem_range]
  constructor
  · intro h i hi
    have hw := h i hi
    unfold workerDoneAtPoll at hw
    cases hm : idleMap i with
    | none => rw [hm] at hw; cases hw
    | some t =>
      rw [hm] at hw
      exact ⟨t, rfl, of_decide_eq_true hw⟩
  · intro h i hi
    obtain ⟨t, hm, ht⟩ := h i hi
    unfold workerDoneAtPoll
    rw [hm]
    exact decide_eq_true ht

/-! ## C3: admission is an atomic test-and-set. -/

/-- C3.  hasURLBeenSeenPreviously accepts (returns false) exactly when the
URL is not yet in the visited set, in which case it marks it visited, and
otherwise leaves the set unchanged; appendURL, in the same single
lock-protected step, marks an unseen URL visited and commits it to the work
queue, and on an already-seen URL returns normally leaving both the visited
set and the queue unchanged. -/
theorem admission_is_atomic_test_and_set (seen : Finset String) (v : UrlTracker)
    (url : String) :
    ((hasURLBeenSeenPreviously seen url).1 = false ↔ url ∉ seen) ∧
    (url ∈ seen → hasURLBeenSeenPreviously seen url = (true, seen)) ∧
    (url ∉ seen → hasURLBeenSeenPreviously seen url = (false, insert url seen)) ∧
    (url ∈ v.urlsSeen → appendURL v url = v) ∧
    (url ∉ v.urlsSeen →
      appendURL v url = ⟨insert url v.urlsSeen, url ::ₘ v.urlsToWork⟩) := by
  refine ⟨?_, fun h => by simp [hasURLBeenSeenPreviously, h],
    fun h => by simp [hasURLBeenSeenPreviously, h],
    fun h => by simp [appendURL, h],
    fun h => by simp [appendURL, h]⟩
  by_cases h : url ∈ seen <;> simp [hasURLBeenSeenPreviously, h]

/-- Concrete instance of C3: admitting a fresh URL to an empty tracker marks
it seen and queues it. -/
theorem admission_test_and_set_witness :
    appendURL ⟨∅, 0⟩ "a" = ⟨insert "a" ∅, "a" ::ₘ 0⟩ :=
  (admission_is_atomic_test_and_set ∅ ⟨∅, 0⟩ "a").2.2.2.2 (by decide)

/-! ## C5: outcome of an external stop. -/

/-- crawlStop under the never-stopping oracle is exactly crawl: the stop
extension changes nothing on stop-free schedules. -/
theorem crawlStop_no_stop (fetch : String → Except String (List Link))
    (elig : String → Bool) :
    ∀ (fuel : Nat) (url : String) (st : RVState),
      crawlStop fetch elig (fun _ => false) fuel url st = crawl fetch elig fuel url st := by
  intro fuel
  induction fuel with
  | zero => intro url st; rfl
  | succ n ih =>
    intro url st
    simp only [crawlStop, crawl, Bool.false_eq_true, if_false]
    cases hfu : fetch url with
    | error e => rfl
    | ok res =>
      have hfold :
          ∀ (l : List String) (b : RVState),
            l.foldl (fun acc x => (crawlStop fetch elig (fun _ => false) n x acc).1) b =
              l.foldl (fun acc x => (crawl fetch elig n x acc).1) b := by
        intro l
        induction l with
        | nil => intro b; rfl
        | cons x t iht => intro b; simp only [List.foldl_cons, ih, iht]
      simp only [hfold]

/-- C5 counterexample.  In the recursive variant the stop can only surface
at the root call's select, before any page is recorded: when the stop wins
at the root, the invocation's error message is "context cancelled" - not
"execution terminated" - and the returned site map is empty (the seed has no
entry); when the stop instead wins during the descendant crawl of "a", the
child's cancellation error is discarded and the invocation returns the
partial map (holding the seed's page) with no error at all, not the claimed
non-nil error. -/
theorem rv_cancellation_not_as_claimed :
    (newCrawlerInvokeStop wFetchA wElig (fun _ => true) 3 "s").2 =
      some "context cancelled" ∧
    ¬ (newCrawlerInvokeStop wFetchA wElig (fun _ => true) 3 "s").2 =
      some "execution terminated" ∧
    (newCrawlerInvokeStop wFetchA wElig (fun _ => true) 3 "s").1 "s" = none ∧
    (newCrawlerInvokeStop wFetchA wElig wStopAtA 3 "s").2 = none ∧
    (newCrawlerInvokeStop wFetchA wElig wStopAtA 3 "s").1 "s" =
      some [⟨LinkType.LinkTypeA, "a"⟩] := by
  refine ⟨rfl, ?_, rfl, rfl, rfl⟩
  decide

/-- C5 amended.  When the stop signal wins the queue-variant select, the
crawler returns nil together with exactly the error "execution terminated"
(and on the workers-idle path the seen URLs with no error).  In the
recursive variant the invocation's error is decided by the root call's
select alone: when the stop wins at the root - necessarily before any page
is recorded - the invocation returns an entirely empty map together with the
error "context cancelled"; otherwise the invocation's error is the root
fetch's own outcome, regardless of stop signals observed by descendant
crawls, whose cancellation errors are discarded. -/
theorem cancellation_outcomes_by_variant (keys : List String)
    (fetch : String → Except String (List Link)) (elig : String → Bool)
    (stopWins : String → Bool) (fuel : Nat) (seed u : String) :
    qvSelectOutcome true keys = (none, some "execution terminated") ∧
    qvSelectOutcome false keys = (some keys, none) ∧
    (stopWins seed = true →
      (newCrawlerInvokeStop fetch elig stopWins (fuel + 1) seed).1 u = none ∧
      (newCrawlerInvokeStop fetch elig stopWins (fuel + 1) seed).2 =
        some "context cancelled") ∧
    ((newCrawlerInvokeStop fetch elig stopWins (fuel + 1) seed).2 =
      if stopWins seed then some "context cancelled"
      else
        match fetch seed with
        | Except.error e => some e
        | Except.ok _ => none) := by
  refine ⟨rfl, rfl, ?_, ?_⟩
  · intro h
    constructor
    · simp [newCrawlerInvokeStop, crawlStop, h]
    · simp [newCrawlerInvokeStop, crawlStop, h]
  · by_cases hs : stopWins seed = true
    · simp [newCrawlerInvokeStop, crawlStop, hs]
    · have hs' : stopWins seed = false := by
        cases hcase : stopWins seed
        · rfl
        · exact absurd hcase hs
      cases hfu : fetch seed with
      | error e => simp [newCrawlerInvokeStop, crawlStop, hs', hfu]
      | ok res => simp [newCrawlerInvokeStop, crawlStop, hs', hfu]

/-- Concrete instance of C5's amended statement: with the stop winning the
root select, the recursive-variant invocation returns an empty map together
with the cancellation error. -/
theorem cancellation_root_stop_witness :
    (newCrawlerInvokeStop wFetchA wElig (fun _ => true) 3 "s").1 "s" = none ∧
    (newCrawlerInvokeStop wFetchA wElig (fun _ => true) 3 "s").2 =
      some "context cancelled" :=
  (cancellation_outcomes_by_variant [] wFetchA wElig (fun _ => true) 2 "s" "s").2.2.1 rfl

/-! ## C6: the worker-start loops. -/

/-- C6.  concurrency.go's startWorkerPool loop runs its body for i = 0
through workerCount inclusive, starting workerCount + 1 workers - one more
than configured (shown here at workerCount = 10) - whereas crawl.go's loop
starts exactly workerCount workers. -/
theorem startWorkerPool_starts_one_extra_worker :
    (startWorkerPoolWorkers 10).length = 11 ∧
    (newCrawlerWorkers 10).length = 10 ∧
    ¬ (startWorkerPoolWorkers 10).length = 10 := by
  decide

/-! ## C7: configuration validation before the crawl starts. -/

/-- C7 counterexample.  With a valid seed URL and workerCount = 0, main's
validation accepts the configuration (returns no exit code), so a zero
worker count is not rejected before the crawl begins. -/
theorem zero_workers_not_rejected :
    mainValidate exampleParse "http://example.com" 0 = none := by
  decide

/-- C7 amended.  main rejects an empty seed URL (exit 1), an unparsable seed
URL (exit 2) and a seed URL whose scheme is neither https nor http (exit 3)
before any crawl starts, but its decision is independent of the worker
count, so a zero worker count is never rejected. -/
theorem seed_validation_rejects_bad_urls_only (parse : String → Option GoURL)
    (s : String) (u : GoURL) (workerCount workerCount' : Int) :
    (mainValidate parse "" workerCount = some 1) ∧
    (s ≠ "" → parse s = none → mainValidate parse s workerCount = some 2) ∧
    (s ≠ "" → parse s = some u → u.scheme ≠ "https" → u.scheme ≠ "http" →
      mainValidate parse s workerCount = some 3) ∧
    (mainValidate parse s workerCount = mainValidate parse s workerCount') := by
  refine ⟨by simp [mainValidate], ?_, ?_, rfl⟩
  · intro hs hp
    simp [mainValidate, hs, hp]
  · intro hs hp h1 h2
    simp [mainValidate, hs, hp, h1, h2]

/-- Concrete instance of C7's amended statement: an unparsable seed is
rejected with exit code 2. -/
theorem seed_validation_witness :
    mainValidate exampleParse "bad url" 0 = some 2 :=
  (seed_validation_rejects_bad_urls_only exampleParse "bad url" ⟨"x"⟩ 0 0).2.1
    (by decide) (by decide)

/-! ## C9 counterexample: the pool-variant work queue is unbuffered. -/

/-- C9 counterexample.  The work queue created by startWorkerPool
(concurrency.go line 22) is unbuffered: its capacity is 0, not the worker
count (10 here). -/
theorem pool_work_queue_unbuffered :
    workQueueCapacity = 0 ∧ ¬ workQueueCapacity = urlsToProcessCapacity 10 := by
  decide

/-! ## C10: link-target resolution. -/

/-- C10.  linkTarget returns the href unchanged when it begins with
"mailto:", "http://" or "https://"; otherwise it resolves the parsed href
against the source document's URL; when parsing fails it returns the empty
string with a nil error; its error is nil on every path, so processElement
always records a Link with the produced target (an empty string on parse
failure) instead of skipping it. -/
theorem linkTarget_resolution (α : Type) (parse : String → Option α)
    (resolve : α → String) (href : String) (lt : LinkType)
    (existingLinks : List Link) :
    ((goHasPre href "mailto:" || goHasPre href "http://" || goHasPre href "https://") = true →
      linkTarget parse resolve href = (href, none)) ∧
    (∀ rel, (goHasPre href "mailto:" || goHasPre href "http://" || goHasPre href "https://") = false →
      parse href = some rel → linkTarget parse resolve href = (resolve rel, none)) ∧
    ((goHasPre href "mailto:" || goHasPre href "http://" || goHasPre href "https://") = false →
      parse href = none → linkTarget parse resolve href = ("", none)) ∧
    ((linkTarget parse resolve href).2 = none) ∧
    (processElementRecord parse resolve lt existingLinks href =
      existingLinks ++ [⟨lt, (linkTarget parse resolve href).1⟩]) := by
  have herr : (linkTarget parse resolve href).2 = none := by
    unfold linkTarget
    by_cases h : (goHasPre href "mailto:" || goHasPre href "http://" || goHasPre href "https://") = true
    · simp [h]
    · simp only [Bool.not_eq_true] at h
      cases hp : parse href <;> simp [h, hp]
  refine ⟨fun h => by simp [linkTarget, h],
    fun rel h hp => by simp [linkTarget, h, hp],
    fun h hp => by simp [linkTarget, h, hp],
    herr, ?_⟩
  unfold processElementRecord
  cases hlt : linkTarget parse resolve href with
  | mk target err =>
    have he : err = none := by rw [hlt] at herr; exact herr
    subst he
    simp

/-- Concrete instance of C10: an href that parses on no path is still
recorded, as a Link whose target is the empty string. -/
theorem linkTarget_failure_recorded_witness :
    processElementRecord (fun _ : String => (none : Option Unit)) (fun _ => "")
      LinkType.LinkTypeA [] "::bad" = [⟨LinkType.LinkTypeA, ""⟩] := by
  have h := (linkTarget_resolution Unit (fun _ => none) (fun _ => "") "::bad"
    LinkType.LinkTypeA []).2.2.2.2
  rw [h]
  have h3 := (linkTarget_resolution Unit (fun _ => none) (fun _ => "") "::bad"
    LinkType.LinkTypeA []).2.2.1 (by decide) rfl
  rw [h3]
  rfl

/-! ## Invariants of the queue-variant semantics -/

/-- Every atomic step of the queue-variant crawl preserves the invariant. -/
theorem qstep_preserves_inv {links : String → List String} {elig : String → Bool}
    {cap : Nat} {seed : String} {s s' : QState}
    (hinv : QInv links elig seed s) (hstep : QStep links elig cap s s') :
    QInv links elig seed s' := by
  obtain ⟨h1, h2, h3⟩ := hinv
  cases hstep with
  | admitNew l rest hb he hsn =>
    refine ⟨?_, ?_, Finset.mem_insert_of_mem h3⟩
    · intro u
      have h0 := h1 u
      unfold queuedOrFetched at h0 ⊢
      dsimp only
      by_cases hu : u = l
      · subst hu
        rw [if_neg hsn] at h0
        rw [Multiset.count_cons_self, if_pos (Finset.mem_insert_self _ _)]
        omega
      · rw [Multiset.count_cons_of_ne hu]
        by_cases hv : u ∈ s.urlsSeen
        · rw [if_pos hv] at h0
          rw [if_pos (Finset.mem_insert_of_mem hv)]
          exact h0
        · rw [if_neg hv] at h0
          rw [if_neg (by simp [Finset.mem_insert, hu, hv])]
          exact h0
    · intro u hu l' hl' he'
      dsimp only at hu ⊢
      rcases h2 u hu l' hl' he' with hseen | ⟨b, hbmem, hlb⟩
      · exact Or.inl (Finset.mem_insert_of_mem hseen)
      · by_cases hbb : b = l :: rest
        · subst hbb
          rcases List.mem_cons.mp hlb with heq | hrest
          · subst heq
            exact Or.inl (Finset.mem_insert_self _ _)
          · exact Or.inr ⟨rest, Multiset.mem_cons_self _ _, hrest⟩
        · exact Or.inr ⟨b,
            Multiset.mem_cons_of_mem ((Multiset.mem_erase_of_ne hbb).mpr hbmem), hlb⟩
  | admitSkip l rest hb hskip =>
    refine ⟨?_, ?_, h3⟩
    · intro u
      have h0 := h1 u
      unfold queuedOrFetched at h0 ⊢
      dsimp only
      exact h0
    · intro u hu l' hl' he'
      dsimp only at hu ⊢
      rcases h2 u hu l' hl' he' with hseen | ⟨b, hbmem, hlb⟩
      · exact Or.inl hseen
      · by_cases hbb : b = l :: rest
        · subst hbb
          rcases List.mem_cons.mp hlb with heq | hrest
          · subst heq
            rcases hskip with hef | hsn
            · simp [he'] at hef
            · exact Or.inl hsn
          · exact Or.inr ⟨rest, Multiset.mem_cons_self _ _, hrest⟩
        · exact Or.inr ⟨b,
            Multiset.mem_cons_of_mem ((Multiset.mem_erase_of_ne hbb).mpr hbmem), hlb⟩
  | finishBatch hb =>
    refine ⟨?_, ?_, h3⟩
    · intro u
      have h0 := h1 u
      unfold queuedOrFetched at h0 ⊢
      dsimp only
      exact h0
    · intro u hu l' hl' he'
      dsimp only at hu ⊢
      rcases h2 u hu l' hl' he' with hseen | ⟨b, hbmem, hlb⟩
      · exact Or.inl hseen
      · have hbne : b ≠ [] := List.ne_nil_of_mem hlb
        exact Or.inr ⟨b, (Multiset.mem_erase_of_ne hbne).mpr hbmem, hlb⟩
  | deliverPending l hl hcap =>
    refine ⟨?_, ?_, h3⟩
    · intro u
      have h0 := h1 u
      unfold queuedOrFetched at h0 ⊢
      dsimp only
      by_cases hu : u = l
      · subst hu
        rw [Multiset.count_cons_self, Multiset.count_erase_self]
        have hpos : 0 < s.pending.count u := Multiset.count_pos.mpr hl
        omega
      · rw [Multiset.count_cons_of_ne hu, Multiset.count_erase_of_ne hu]
        exact h0
    · intro u hu l' hl' he'
      dsimp only at hu ⊢
      exact h2 u hu l' hl' he'
  | takeAndFetch u hu =>
    refine ⟨?_, ?_, h3⟩
    · intro v
      have h0 := h1 v
      unfold queuedOrFetched at h0 ⊢
      dsimp only
      by_cases hv : v = u
      · subst hv
        rw [Multiset.count_cons_self, Multiset.count_erase_self]
        have hpos : 0 < s.buffer.count v := Multiset.count_pos.mpr hu
        omega
      · rw [Multiset.count_cons_of_ne hv, Multiset.count_erase_of_ne hv]
        exact h0
    · intro v hv l' hl' he'
      dsimp only at hv ⊢
      rcases Multiset.mem_cons.mp hv with hvu | hvf
      · subst hvu
        exact Or.inr ⟨links v, Multiset.mem_cons_self _ _, hl'⟩
      · rcases h2 v hvf l' hl' he' with hseen | ⟨b, hbmem, hlb⟩
        · exact Or.inl hseen
        · exact Or.inr ⟨b, Multiset.mem_cons_of_mem hbmem, hlb⟩

/-- Every reachable state of the queue-variant crawl satisfies the invariant. -/
theorem qreach_inv {links : String → List String} {elig : String → Bool}
    {cap : Nat} {seed : String} {s : QState}
    (h : QReach links elig cap seed s) : QInv links elig seed s := by
  induction h with
  | init =>
    refine ⟨?_, ?_, Finset.mem_singleton_self seed⟩
    · intro u
      unfold queuedOrFetched initState
      dsimp only
      by_cases hu : u = seed
      · subst hu
        simp
      · simp [Multiset.count_singleton, hu, Finset.mem_singleton]
    · intro u hu
      exact absurd hu (Multiset.not_mem_zero u)
  | step _ hstep ih => exact qstep_preserves_inv ih hstep

/-- At quiescence every URL reachable along eligible links has been marked
seen. -/
theorem terminal_reachable_seen {links : String → List String} {elig : String → Bool}
    {cap : Nat} {seed : String} {s : QState}
    (h : QReach links elig cap seed s) (ht : QTerminal s) :
    ∀ u, ReachURL links elig seed u → u ∈ s.urlsSeen := by
  obtain ⟨h1, h2, h3⟩ := qreach_inv h
  obtain ⟨hp, hb, hi⟩ := ht
  intro u hu
  induction hu with
  | start => exact h3
  | @step u' l' hprev hl he ih =>
    have hcount := h1 u'
    rw [if_pos ih] at hcount
    unfold queuedOrFetched at hcount
    rw [hp, hb] at hcount
    simp only [Multiset.count_zero] at hcount
    have hf := Multiset.count_pos.mp (show 0 < s.fetched.count u' by omega)
    rcases h2 _ hf _ hl he with hseen | ⟨b, hbmem, _⟩
    · exact hseen
    · rw [hi] at hbmem
      exact absurd hbmem (Multiset.not_mem_zero b)

/-! ## C1: every URL is fetched at most once, and at quiescence every
reachable eligible URL exactly once. -/

/-- C1.  In every state the queue-variant crawl can reach, each URL has been
handed to a worker and fetched at most once - admission marks a URL seen
under the mutex atomically with its enqueue, and a seen URL is never
enqueued again - and in every quiescent state (nothing pending, buffered or
mid-admission) each URL reachable from the seed along eligible links has
been fetched exactly once, so it appears in the result's key set (the seen
set, which then coincides with the fetched multiset) exactly once. -/
theorem crawl_fetches_each_url_at_most_once {links : String → List String}
    {elig : String → Bool} {cap : Nat} {seed : String} {s : QState}
    (h : QReach links elig cap seed s) :
    (∀ u, s.fetched.count u ≤ 1) ∧
    (QTerminal s → ∀ u, ReachURL links elig seed u → s.fetched.count u = 1) := by
  obtain ⟨h1, _, _⟩ := qreach_inv h
  constructor
  · intro u
    have h0 := h1 u
    unfold queuedOrFetched at h0
    by_cases hu : u ∈ s.urlsSeen
    · rw [if_pos hu] at h0
      omega
    · rw [if_neg hu] at h0
      omega
  · intro ht u hu
    have hseen := terminal_reachable_seen h ht u hu
    have h0 := h1 u
    rw [if_pos hseen] at h0
    unfold queuedOrFetched at h0
    obtain ⟨hp, hb, _⟩ := ht
    rw [hp, hb] at h0
    simp only [Multiset.count_zero] at h0
    omega

/-- Concrete run of C1: crawling the one-page site from seed "s" with one
worker reaches quiescence with "s" fetched exactly once. -/
theorem crawl_exactly_once_witness :
    (QState.mk {"s"} 0 (({"s"} : Multiset String).erase "s") ("s" ::ₘ 0)
      ((([] : List String) ::ₘ 0).erase [])).fetched.count "s" = 1 := by
  have h0 : QReach wLinks wElig 1 "s" (initState "s") := QReach.init
  have h1 := QReach.step h0 (QStep.takeAndFetch (initState "s") "s" (by decide))
  have h2 := QReach.step h1 (QStep.finishBatch _ (by decide))
  exact (crawl_fetches_each_url_at_most_once h2).2 ⟨by decide, by decide, by decide⟩ "s"
    ReachURL.start

/-! ## C9: frontier capacity and detached admission. -/

/-- C9 amended.  The queue-variant frontier channel is created with buffer
capacity equal to the worker count, and the admission step is enabled
regardless of the buffer's contents and of the capacity - the channel send
is spawned on a separate goroutine, modelled by the pending component, so
the discovering worker never blocks on its own enqueue; only delivery into
the buffer is gated by the capacity.  The pool-variant work queue, by
contrast, is created unbuffered. -/
theorem frontier_bounded_and_admission_detached (workerCount cap : Nat)
    (links : String → List String) (elig : String → Bool) (s : QState)
    (l : String) (rest : List String)
    (hb : (l :: rest) ∈ s.inflight) (he : elig l = true) (hs : l ∉ s.urlsSeen) :
    urlsToProcessCapacity workerCount = workerCount ∧
    workQueueCapacity = 0 ∧
    QStep links elig cap s
      ⟨insert l s.urlsSeen, l ::ₘ s.pending, s.buffer, s.fetched,
        rest ::ₘ s.inflight.erase (l :: rest)⟩ :=
  ⟨rfl, rfl, QStep.admitNew s l rest hb he hs⟩

/-- Concrete instance of C9's amended statement: with capacity 0 and a
non-empty (hence over-full) buffer, admission of a fresh eligible URL is
still an enabled step. -/
theorem frontier_admission_witness :
    urlsToProcessCapacity 10 = 10 ∧ workQueueCapacity = 0 ∧
    QStep (fun _ => []) (fun _ => true) 0
      ⟨∅, 0, {"q"}, 0, {["x"]}⟩
      ⟨insert "x" ∅, "x" ::ₘ 0, {"q"}, 0,
        [] ::ₘ ({["x"]} : Multiset (List String)).erase ["x"]⟩ :=
  frontier_bounded_and_admission_detached 10 0 (fun _ => []) (fun _ => true)
    ⟨∅, 0, {"q"}, 0, {["x"]}⟩ "x" [] (by decide) rfl (by decide)

/-! ## Facts about the sequentialised recursive crawl -/

/-- A URL whose fetch fails never gains a siteMap entry: crawl leaves the
siteMap unchanged at that key. -/
theorem crawl_error_url_no_entry (fetch : String → Except String (List Link))
    (elig : String → Bool) (v e : String) (hfe : fetch v = Except.error e) :
    ∀ (fuel : Nat) (url : String) (st : RVState),
      ((crawl fetch elig fuel url st).1).siteMap v = st.siteMap v := by
  intro fuel
  induction fuel with
  | zero => intro url st; rfl
  | succ n ih =>
    intro url st
    cases hfu : fetch url with
    | error e' => simp [crawl, hfu]
    | ok res =>
      have hvne : v ≠ url := fun h => by
        rw [h, hfu] at hfe
        exact Except.noConfusion hfe
      simp only [crawl, hfu]
      refine foldl_preserves _ (fun acc : RVState => acc.siteMap v = st.siteMap v) _
        (fun b a _ hbp => (ih a b).trans hbp) _ ?_
      show (addURL st url res).siteMap v = st.siteMap v
      simp [addURL, hvne]

/-- The invocation's returned error is exactly the fetch error of the
starting URL: child errors are discarded. -/
theorem crawl_error_iff_seed (fetch : String → Except String (List Link))
    (elig : String → Bool) (fuel : Nat) (seed e : String) :
    (newCrawlerInvoke fetch elig (fuel + 1) seed).2 = some e ↔
      fetch seed = Except.error e := by
  unfold newCrawlerInvoke
  cases hfs : fetch seed with
  | error e' => simp [crawl, hfs]
  | ok res => simp [crawl, hfs]

/-! ## C4: fetch-failure handling of the recursive variant. -/

/-- C4 counterexample.  With a fetch that fails on every URL, the
recursive-variant invocation (part_000 crawl, lines 185-188 and 210-212)
returns the root fetch error "boom" as the crawl's error: a fetch failure of
the starting URL surfaces as the crawl's error instead of the crawl
returning success. -/
theorem seed_fetch_error_surfaces :
    (newCrawlerInvoke wFetchErr wElig 5 "s").2 = some "boom" := rfl

/-- C4 amended.  A URL whose fetch fails is never entered into the returned
CrawlResult map (the failure is only logged and the URL is not retried), and
fetch failures of URLs other than the starting one are discarded so the
crawl continues and returns success; a fetch failure of the starting URL,
however, is returned as the invocation's error (the invocation errs exactly
when the seed's fetch errs). -/
theorem rv_fetch_failure_nonfatal_except_seed (fetch : String → Except String (List Link))
    (elig : String → Bool) (fuel : Nat) (seed u e : String) :
    (fetch u = Except.error e → (newCrawlerInvoke fetch elig fuel seed).1 u = none) ∧
    ((newCrawlerInvoke fetch elig (fuel + 1) seed).2 = some e ↔
      fetch seed = Except.error e) := by
  constructor
  · intro hfe
    unfold newCrawlerInvoke
    exact crawl_error_url_no_entry fetch elig u e hfe fuel seed ⟨{seed}, fun _ => none⟩
  · exact crawl_error_iff_seed fetch elig fuel seed e

/-- Concrete instance of C4's amended statement: a URL whose fetch fails has
no entry in the returned map. -/
theorem rv_fetch_failure_witness :
    (newCrawlerInvoke wFetchErr wElig 2 "s").1 "bad" = none :=
  (rv_fetch_failure_nonfatal_except_seed wFetchErr wElig 2 "s" "bad" "boom").1 rfl

/-! ## C8: embedded resources are recorded but never traversed. -/

/-- Links collected for further crawling all come from hyperlink (LinkTypeA)
entries of the fetched list that pass the eligibility predicate. -/
theorem collect_mem_from_hyperlink (elig : String → Bool) :
    ∀ (res : List Link) (acc : List String) (seen : Finset String) (l : String),
      l ∈ (collectLinksToCrawl elig res acc seen).1 →
      l ∈ acc ∨ ∃ lk ∈ res, lk.linkType = LinkType.LinkTypeA ∧
        elig lk.linkTarget = true ∧ lk.linkTarget = l := by
  intro res
  induction res with
  | nil => intro acc seen l hl; exact Or.inl hl
  | cons lk rest ih =>
    intro acc seen l hl
    simp only [collectLinksToCrawl] at hl
    by_cases hc : lk.linkType = LinkType.LinkTypeA ∧ elig lk.linkTarget = true
    · rw [if_pos hc] at hl
      by_cases hs : lk.linkTarget ∈ seen
      · rw [if_pos hs] at hl
        rcases ih _ _ _ hl with h | ⟨lk', hmem, hprops⟩
        · exact Or.inl h
        · exact Or.inr ⟨lk', List.mem_cons_of_mem _ hmem, hprops⟩
      · rw [if_neg hs] at hl
        rcases ih _ _ _ hl with h | ⟨lk', hmem, hprops⟩
        · rcases List.mem_append.mp h with h' | h'
          · exact Or.inl h'
          · have h'' := List.mem_singleton.mp h'
            exact Or.inr ⟨lk, List.mem_cons_self _ _, hc.1, hc.2, h''.symm⟩
        · exact Or.inr ⟨lk', List.mem_cons_of_mem _ hmem, hprops⟩
    · rw [if_neg hc] at hl
      rcases ih _ _ _ hl with h | ⟨lk', hmem, hprops⟩
      · exact Or.inl h
      · exact Or.inr ⟨lk', List.mem_cons_of_mem _ hmem, hprops⟩

/-- Collected links are fresh: they were not in the seen-set the collection
started from. -/
theorem collect_not_seen (elig : String → Bool) :
    ∀ (res : List Link) (acc : List String) (seen : Finset String) (l : String),
      l ∈ (collectLinksToCrawl elig res acc seen).1 → l ∈ acc ∨ l ∉ seen := by
  intro res
  induction res with
  | nil => intro acc seen l hl; exact Or.inl hl
  | cons lk rest ih =>
    intro acc seen l hl
    simp only [collectLinksToCrawl] at hl
    by_cases hc : lk.linkType = LinkType.LinkTypeA ∧ elig lk.linkTarget = true
    · rw [if_pos hc] at hl
      by_cases hs : lk.linkTarget ∈ seen
      · rw [if_pos hs] at hl
        exact ih _ _ _ hl
      · rw [if_neg hs] at hl
        rcases ih _ _ _ hl with h | h
        · rcases List.mem_append.mp h with h' | h'
          · exact Or.inl h'
          · have h'' := List.mem_singleton.mp h'
            subst h''
            exact Or.inr hs
        · exact Or.inr fun hin => h (Finset.mem_insert_of_mem hin)
    · rw [if_neg hc] at hl
      exact ih _ _ _ hl

/-- The collection loop only grows the seen-set. -/
theorem collect_seen_mono (elig : String → Bool) :
    ∀ (res : List Link) (acc : List String) (seen : Finset String),
      seen ⊆ (collectLinksToCrawl elig res acc seen).2 := by
  intro res
  induction res with
  | nil => intro acc seen; exact Finset.Subset.refl _
  | cons lk rest ih =>
    intro acc seen
    simp only [collectLinksToCrawl]
    by_cases hc : lk.linkType = LinkType.LinkTypeA ∧ elig lk.linkTarget = true
    · rw [if_pos hc]
      by_cases hs : lk.linkTarget ∈ seen
      · rw [if_pos hs]
        exact ih _ _
      · rw [if_neg hs]
        exact Finset.Subset.trans (Finset.subset_insert _ _) (ih _ _)
    · rw [if_neg hc]
      exact ih _ _

/-- crawl only grows the seen-set. -/
theorem crawl_seen_mono (fetch : String → Except String (List Link))
    (elig : String → Bool) :
    ∀ (fuel : Nat) (url : String) (st : RVState),
      st.urlsSeen ⊆ ((crawl fetch elig fuel url st).1).urlsSeen := by
  intro fuel
  induction fuel with
  | zero => intro url st; exact Finset.Subset.refl _
  | succ n ih =>
    intro url st
    cases hfu : fetch url with
    | error e =>
      simp only [crawl, hfu]
      exact Finset.Subset.refl _
    | ok res =>
      simp only [crawl, hfu]
      refine foldl_preserves _ (fun acc : RVState => st.urlsSeen ⊆ acc.urlsSeen) _
        (fun b a _ hb => Finset.Subset.trans hb (ih a b)) _ ?_
      show st.urlsSeen ⊆ (collectLinksToCrawl elig res [] (addURL st url res).urlsSeen).2
      exact collect_seen_mono elig res [] _

/-- crawl of a URL other than w never rewrites w's siteMap entry, provided w
is already marked seen (so no descendant can collect it again). -/
theorem crawl_siteMap_stable_of_seen (fetch : String → Except String (List Link))
    (elig : String → Bool) (w : String) :
    ∀ (fuel : Nat) (url : String) (st : RVState),
      w ∈ st.urlsSeen → url ≠ w →
      ((crawl fetch elig fuel url st).1).siteMap w = st.siteMap w := by
  intro fuel
  induction fuel with
  | zero => intro url st _ _; rfl
  | succ n ih =>
    intro url st hw hne
    cases hfu : fetch url with
    | error e => simp [crawl, hfu]
    | ok res =>
      simp only [crawl, hfu]
      have hwne : ¬ (w = url) := fun h => hne h.symm
      have hmap1 : (addURL st url res).siteMap w = st.siteMap w := by
        simp [addURL, hwne]
      refine (foldl_preserves (fun acc l => (crawl fetch elig n l acc).1)
        (fun acc : RVState => acc.siteMap w = st.siteMap w ∧ w ∈ acc.urlsSeen)
        _ ?_ _ ?_).1
      · intro b a ha hb
        have haw : a ≠ w := by
          rcases collect_not_seen elig res [] _ a ha with h | h
          · cases h
          · exact fun heq => h (by rw [heq]; exact hw)
        exact ⟨(ih a b hb.2 haw).trans hb.1, crawl_seen_mono fetch elig n a b hb.2⟩
      · exact ⟨hmap1, Finset.mem_of_subset (collect_seen_mono elig res [] _) hw⟩

/-- After a successful crawl of a seen URL, its siteMap entry is exactly the
full fetched link list. -/
theorem crawl_records_parent (fetch : String → Except String (List Link))
    (elig : String → Bool) (fuel : Nat) (url : String) (st : RVState)
    (res : List Link) (hfu : fetch url = Except.ok res) (hseen : url ∈ st.urlsSeen) :
    ((crawl fetch elig (fuel + 1) url st).1).siteMap url = some res := by
  simp only [crawl, hfu]
  refine (foldl_preserves (fun acc l => (crawl fetch elig fuel l acc).1)
    (fun acc : RVState => acc.siteMap url = some res ∧ url ∈ acc.urlsSeen)
    _ ?_ _ ?_).1
  · intro b a ha hb
    have haw : a ≠ url := by
      rcases collect_not_seen elig res [] _ a ha with h | h
      · cases h
      · exact fun heq => h (by rw [heq]; exact hseen)
    exact ⟨(crawl_siteMap_stable_of_seen fetch elig url fuel a b hb.2 haw).trans hb.1,
      crawl_seen_mono fetch elig fuel a b hb.2⟩
  · constructor
    · show (addURL st url res).siteMap url = some res
      simp [addURL]
    · exact Finset.mem_of_subset (collect_seen_mono elig res [] _) hseen

/-- Every siteMap entry produced by a crawl call belongs to a URL reachable
along eligible hyperlinks and holds exactly that URL's fetched link list. -/
theorem crawl_keys_reachable (fetch : String → Except String (List Link))
    (elig : String → Bool) (seed : String) :
    ∀ (fuel : Nat) (url : String) (st : RVState),
      ReachRV fetch elig seed url →
      (∀ v ls, st.siteMap v = some ls → ReachRV fetch elig seed v ∧ fetch v = Except.ok ls) →
      ∀ v ls, ((crawl fetch elig fuel url st).1).siteMap v = some ls →
        ReachRV fetch elig seed v ∧ fetch v = Except.ok ls := by
  intro fuel
  induction fuel with
  | zero => intro url st _ hst v ls hv; exact hst v ls hv
  | succ n ih =>
    intro url st hurl hst v ls hv
    cases hfu : fetch url with
    | error e =>
      simp only [crawl, hfu] at hv
      exact hst v ls hv
    | ok res =>
      simp only [crawl, hfu] at hv
      revert hv
      refine foldl_preserves _
        (fun acc : RVState => ∀ w ws, acc.siteMap w = some ws →
          ReachRV fetch elig seed w ∧ fetch w = Except.ok ws) _ ?_ _ ?_ v ls
      · intro b a ha hb
        have hreach : ReachRV fetch elig seed a := by
          rcases collect_mem_from_hyperlink elig res [] _ a ha with h | ⟨lk, hmem, hA, hE, hT⟩
          · cases h
          · exact hT ▸ ReachRV.step hurl hfu hmem hA hE
        exact ih a b hreach hb
      · intro w ws hw
        by_cases hvu : w = url
        · subst hvu
          have hres : some res = some ws := by
            have : (addURL st w res).siteMap w = some ws := hw
            simpa [addURL] using this
          have hres' := Option.some.inj hres
          subst hres'
          exact ⟨hurl, hfu⟩
        · have hst' : st.siteMap w = some ws := by
            have : (addURL st url res).siteMap w = some ws := hw
            simpa [addURL, hvu] using this
          exact hst w ws hst'

/-- C8.  Every key of the map returned by a recursive-variant invocation is
reachable from the seed along eligible hyperlinks (LinkTypeA) - so a URL
discovered only as an EmbeddedResource (LinkTypeImg) never produces its own
CrawlResult entry - and each key's value is the page's full fetched link
list, embedded-resource links included; moreover only hyperlinks passing the
eligibility predicate are ever collected for admission to the frontier, and
the seed's own entry likewise records the full fetched list. -/
theorem embedded_resources_recorded_not_traversed
    (fetch : String → Except String (List Link)) (elig : String → Bool)
    (fuel : Nat) (seed : String) :
    (∀ u ls, (newCrawlerInvoke fetch elig fuel seed).1 u = some ls →
      ReachRV fetch elig seed u ∧ fetch u = Except.ok ls) ∧
    (∀ res acc seen l, l ∈ (collectLinksToCrawl elig res acc seen).1 →
      l ∈ acc ∨ ∃ lk ∈ res, lk.linkType = LinkType.LinkTypeA ∧
        elig lk.linkTarget = true ∧ lk.linkTarget = l) ∧
    (∀ res, fetch seed = Except.ok res →
      (newCrawlerInvoke fetch elig (fuel + 1) seed).1 seed = some res) := by
  refine ⟨?_, fun res acc seen l => collect_mem_from_hyperlink elig res acc seen l, ?_⟩
  · intro u ls hu
    unfold newCrawlerInvoke at hu
    exact crawl_keys_reachable fetch elig seed fuel seed _ ReachRV.start
      (fun v ls' hv => Option.noConfusion hv) u ls hu
  · intro res hres
    unfold newCrawlerInvoke
    exact crawl_records_parent fetch elig fuel seed _ res hres
      (Finset.mem_singleton_self seed)

/-- Concrete instance of C8: on a site whose seed page embeds one image, the
seed's entry exists (holding the image link), and applying the theorem to it
recovers its reachability and its fetched list. -/
theorem embedded_resources_witness :
    ReachRV wFetch wElig "s" "s" ∧
      wFetch "s" = Except.ok [⟨LinkType.LinkTypeImg, "i"⟩] :=
  (embedded_resources_recorded_not_traversed wFetch wElig 1 "s").1 "s"
    [⟨LinkType.LinkTypeImg, "i"⟩] rfl
